import Mathlib

/-!
Verification of the RAG engine (core/rag/engine.py) of the ai-nanny
repository.  The Python code is shallowly embedded: text is `List Char`,
Python slices and `str.rfind`/`str.strip` are modelled explicitly, the
chunking `while` loop is given explicit fuel (`none` = the loop has not
terminated within the fuel), and the stateful engine operations are pure
functions over an explicit `EngineState` with the outcomes of the external
collaborators (file system, embedding provider, ChromaDB collection)
supplied as oracle arguments.
-/

namespace RAG

/-! ## Python string primitives -/

/-- Python slice-index normalization: a negative index counts from the end
of the sequence, and the result is clamped to `[0, len]`. -/
def pyIdx (len : Nat) (i : Int) : Nat :=
  if i < 0 then (max ((len : Int) + i) 0).toNat else min i.toNat len

/-- Python slice `s[a:b]` on a character list. -/
def pySlice (s : List Char) (a b : Int) : List Char :=
  let lo := pyIdx s.length a
  let hi := pyIdx s.length b
  (s.drop lo).take (hi - lo)

/-- Python `str.rfind(c)` for a one-character needle: the highest index at
which `c` occurs, or `-1` when it does not occur. -/
def rfindChar (c : Char) : List Char → Int
  | [] => -1
  | x :: xs =>
    let r := rfindChar c xs
    if r = -1 then (if x = c then 0 else -1) else r + 1

/-- Python `str.strip()`: remove leading and trailing whitespace. -/
def pyStrip (s : List Char) : List Char :=
  ((s.dropWhile Char.isWhitespace).reverse.dropWhile Char.isWhitespace).reverse

/-! ## The chunker (`RAGEngine.chunk_text`, engine.py lines 180-204) -/

/-- One iteration of the chunking loop (engine.py lines 188-199): cut the
window `text[start : start + chunk_size]`, and when the window does not
reach the end of the text and the last `'.'`/newline of the window lies
past its midpoint, truncate the chunk to end at that character (inclusive)
and move `end` to the actual end of the shortened chunk.  Returns the
(pre-strip) chunk together with the updated `end`.  The Python float
comparison `break_point > chunk_size * 0.5` is exact for these operand
ranges and is encoded as `2 * break_point > chunk_size`. -/
def chunkStep (chunk_size : Nat) (text : List Char) (start : Int) :
    List Char × Int :=
  let endIdx : Int := start + chunk_size
  let chunk := pySlice text start endIdx
  if endIdx < (text.length : Int) then
    let break_point := max (rfindChar '.' chunk) (rfindChar '\n' chunk)
    if 2 * break_point > (chunk_size : Int) then
      let chunk2 := chunk.take (break_point.toNat + 1)
      (chunk2, start + chunk2.length)
    else
      (chunk, endIdx)
  else
    (chunk, endIdx)

/-- `start = end - overlap` (engine.py line 202): where the next window
begins, measured from the updated `end` of the current chunk. -/
def nextStart (chunk_size overlap : Nat) (text : List Char) (start : Int) :
    Int :=
  (chunkStep chunk_size text start).2 - overlap

/-- The `while start < len(text)` loop of `chunk_text` (engine.py lines
187-202) followed by the final empty-chunk filter (line 204), with explicit
fuel; `none` means the Python loop has not terminated within `fuel`
iterations. -/
def chunkLoop (chunk_size overlap : Nat) (text : List Char) :
    Nat → Int → List (List Char) → Option (List (List Char))
  | 0, _, _ => none
  | fuel + 1, start, acc =>
    if start < (text.length : Int) then
      chunkLoop chunk_size overlap text fuel
        (nextStart chunk_size overlap text start)
        (acc ++ [pyStrip (chunkStep chunk_size text start).1])
    else
      some (acc.filter (fun c => !c.isEmpty))

/-- `RAGEngine.chunk_text` (engine.py lines 180-204) on an explicit
configuration.  Every terminating run appearing in the theorems below
finishes within fuel `text.length + 1`; a result of `none` is only used
below after proving that no amount of fuel terminates the loop. -/
def chunk_text (chunk_size overlap : Nat) (text : List Char) :
    Option (List (List Char)) :=
  chunkLoop chunk_size overlap text (text.length + 1) 0 []

/-! ## Data model (core/rag/models.py) and engine state -/

/-- An embedding vector.  Its numeric contents are irrelevant to every
claim, so components are modelled as rationals. -/
abbrev Emb := List ℚ

/-- A chunk id is the deterministic composition
`f"{document_id}_chunk_{i}"` (engine.py line 283), modelled as the pair of
its two components. -/
structure ChunkId where
  doc : String
  idx : Nat
  deriving DecidableEq

/-- `Document` (models.py lines 10-18).  The two metadata entries written
by ingestion, `metadata["chunk_count"]` and `metadata["chunk_ids"]`
(engine.py lines 312-313), are modelled as fields; `upload_date` and the
remaining free-form metadata play no role in any claim. -/
structure Document where
  id : String
  filename : String
  content : List Char
  category : String
  context : String
  chunk_count : Nat
  chunk_ids : List ChunkId
  deriving DecidableEq

/-- One record of the ChromaDB collection: the id, document text,
embedding and the `document_id` metadata field written at ingestion
(engine.py lines 286-301). -/
structure ChunkEntry where
  id : ChunkId
  document_id : String
  content : List Char
  embedding : Emb
  deriving DecidableEq

/-- The engine's persisted state: the document registry
(`self.documents`, a dict modelled as an insertion-ordered association
list), the ChromaDB collection (`self.collection`), the in-memory fallback
store (`self._fallback_store`) and whether the collection was successfully
initialized (`self.collection is not None`). -/
structure EngineState where
  documents : List (String × Document)
  index : List ChunkEntry
  fallback : List ChunkEntry
  hasIndex : Bool
  deriving DecidableEq

/-- A freshly constructed engine with an initialized collection. -/
def emptyEngine : EngineState := ⟨[], [], [], true⟩

/-- The fields of `RAGConfig` (models.py lines 54-64) used by the claims. -/
structure RAGConfig where
  chunk_size : Nat
  chunk_overlap : Nat
  top_k : Nat
  score_threshold : ℚ
  deriving DecidableEq

/-- The default configuration values of models.py lines 56-63. -/
def defaultConfig : RAGConfig := ⟨500, 50, 5, 7 / 10⟩

/-- The fields of `RAGMetrics` (models.py lines 40-51) used by the
claims. -/
structure RAGMetrics where
  total_documents : Nat
  total_chunks : Nat
  total_embeddings : Nat
  deriving DecidableEq

/-- `SearchResult` (models.py lines 31-37); the result's metadata map is
represented by the `document_id` field read from it (engine.py line
363). -/
structure SearchResult where
  chunk_id : ChunkId
  document_id : String
  content : List Char
  score : ℚ
  deriving DecidableEq

/-! ## Registry dictionary operations -/

/-- Python dict assignment `d[k] = v`: replace the value when the key is
present, otherwise append the binding at the end. -/
def dictInsert (l : List (String × Document)) (k : String) (v : Document) :
    List (String × Document) :=
  if l.any (fun p => p.1 == k) then
    l.map (fun p => if p.1 == k then (k, v) else p)
  else l ++ [(k, v)]

/-- Python dict deletion `del d[k]`. -/
def dictErase (l : List (String × Document)) (k : String) :
    List (String × Document) :=
  l.filter (fun p => !(p.1 == k))

/-! ## Ingestion (`RAGEngine.ingest_document`, engine.py lines 246-320) -/

/-- The outcomes of the external collaborators during one ingest call:
the extracted text or the extraction error (engine.py line 260), the
generated document id (line 263), the embedding batch result or the
provider error (line 278), and which `collection.add` call, if any, raises
(lines 295-301). -/
structure IngestCall where
  docId : String
  extract : Except Unit (List Char)
  embed : Except Unit (List Emb)
  writeFail : Option Nat

/-- The chunk-write loop of `ingest_document` (engine.py lines 281-309):
for each `(chunk, embedding)` pair of the zip, write one record keyed by
the deterministic chunk id; `failAt = some j` means the `j`-th
`collection.add` call raises.  Returns the records actually written
together with either the collected chunk-id list or the error. -/
def addChunks (docId : String) (failAt : Option Nat) :
    Nat → List (List Char × Emb) → List ChunkEntry × Except Unit (List ChunkId)
  | _, [] => ([], Except.ok [])
  | i, p :: rest =>
    if failAt = some i then ([], Except.error ())
    else
      let r := addChunks docId failAt (i + 1) rest
      (⟨⟨docId, i⟩, docId, p.1, p.2⟩ :: r.1,
       r.2.map (fun ids => ⟨docId, i⟩ :: ids))

/-- `RAGEngine.ingest_document` (engine.py lines 246-320): extract text,
chunk it, embed the chunks in one batch, write each chunk record to the
collection (or, with no collection, to the fallback store, whose appends
cannot raise), and only then create and register the `Document` record.
The outer `Option` is the fuel of the chunking loop (`none` = the Python
call does not terminate); the inner `Except` is a raised exception.
Registry persistence to disk (line 317) catches its own exceptions and is
modelled away: the in-memory registry is the authoritative state. -/
def ingest_document (cfg : RAGConfig) (st : EngineState) (call : IngestCall)
    (filename category context : String) :
    Option (Except Unit Document × EngineState) :=
  match call.extract with
  | Except.error e => some (Except.error e, st)
  | Except.ok text =>
    match chunk_text cfg.chunk_size cfg.chunk_overlap text with
    | none => none
    | some chunks =>
      match call.embed with
      | Except.error e => some (Except.error e, st)
      | Except.ok embs =>
        let pairs := chunks.zip embs
        let w := addChunks call.docId
          (if st.hasIndex then call.writeFail else none) 0 pairs
        let st1 : EngineState :=
          ⟨st.documents,
           if st.hasIndex then st.index ++ w.1 else st.index,
           if st.hasIndex then st.fallback else st.fallback ++ w.1,
           st.hasIndex⟩
        match w.2 with
        | Except.error e => some (Except.error e, st1)
        | Except.ok cids =>
          let doc : Document :=
            ⟨call.docId, filename, text.take 1000, category, context,
             chunks.length, cids⟩
          some (Except.ok doc,
            ⟨dictInsert st1.documents call.docId doc, st1.index,
             st1.fallback, st1.hasIndex⟩)

/-! ## Deletion (`RAGEngine.delete_document`, engine.py lines 430-452) -/

/-- `RAGEngine.delete_document` (engine.py lines 430-452).  `delFails`
is the oracle for whether the `collection.delete` call (line 441) raises;
a raise is caught by the `except` clause (line 450), which returns `false`
leaving the registry untouched. -/
def delete_document (st : EngineState) (docId : String) (delFails : Bool) :
    Bool × EngineState :=
  match st.documents.find? (fun p => p.1 == docId) with
  | none => (false, st)
  | some p =>
    let cids := p.2.chunk_ids
    if st.hasIndex = true ∧ cids ≠ [] then
      if delFails then (false, st)
      else
        (true,
         ⟨dictErase st.documents docId,
          st.index.filter (fun e => decide (e.id ∉ cids)),
          st.fallback, st.hasIndex⟩)
    else (true, ⟨dictErase st.documents docId, st.index, st.fallback, st.hasIndex⟩)

/-! ## Metrics (`RAGEngine.get_metrics`, engine.py lines 379-428) -/

/-- `RAGEngine.get_metrics` restricted to the three counts the claims
mention: `total_documents = len(self.documents)` (line 415),
`total_chunks` = the sum over registry records of
`metadata.get("chunk_count", 0)` (lines 385-387), and `total_embeddings` =
`collection.count()` (lines 407-412; `0` with no collection, and the
count itself is assumed to succeed). -/
def get_metrics (st : EngineState) : RAGMetrics :=
  ⟨st.documents.length,
   (st.documents.map (fun p => p.2.chunk_count)).sum,
   if st.hasIndex then st.index.length else 0⟩

/-! ## Search (`RAGEngine.search`, engine.py lines 322-377) -/

/-- One hit returned by `collection.query`: id, `document_id` metadata,
document text and raw distance. -/
structure QueryHit where
  id : ChunkId
  document_id : String
  content : List Char
  distance : ℚ
  deriving DecidableEq

/-- Python `x or default` for the optional `top_k` argument: `None` and
`0` are both falsy and select the configured default (engine.py line
333). -/
def pyOrNat : Option Nat → Nat → Nat
  | none, d => d
  | some v, d => if v = 0 then d else v

/-- Python `x or default` for the optional `score_threshold` argument:
`None` and `0.0` are both falsy and select the configured default
(engine.py line 334). -/
def pyOrRat : Option ℚ → ℚ → ℚ
  | none, d => d
  | some v, d => if v = 0 then d else v

/-- `RAGEngine.search` (engine.py lines 322-377).  `embedQuery` is the
outcome of embedding the query (line 337, outside the `try`; its error
propagates); `query` maps the effective `n_results` to the outcome of
`collection.query` (line 349; the metadata `where`-filter is internal to
this oracle).  A query exception is caught and an empty list returned
(lines 371-373); with no collection the fallback path returns an empty
list (lines 374-377).  Each hit's distance is converted to the score
`1 - distance` and hits scoring below the effective threshold are dropped
(lines 356-367). -/
def search (cfg : RAGConfig) (st : EngineState)
    (embedQuery : Except Unit Emb)
    (query : Nat → Except Unit (List QueryHit))
    (top_k : Option Nat) (score_threshold : Option ℚ) :
    Except Unit (List SearchResult) :=
  let effK := pyOrNat top_k cfg.top_k
  let threshold := pyOrRat score_threshold cfg.score_threshold
  match embedQuery with
  | Except.error e => Except.error e
  | Except.ok _ =>
    if st.hasIndex then
      match query effK with
      | Except.error _ => Except.ok []
      | Except.ok hits =>
        Except.ok (hits.filterMap (fun h =>
          if threshold ≤ 1 - h.distance then
            some ⟨h.id, h.document_id, h.content, 1 - h.distance⟩
          else none))
    else Except.ok []

/-! ## Specification-level predicates -/

/-- The fixed-size window `text[start : start + chunk_size]` scanned by
one loop iteration (engine.py lines 189-190). -/
def window (cs : Nat) (text : List Char) (start : Int) : List Char :=
  pySlice text start (start + (cs : Int))

/-- The `break_point` of engine.py lines 194-196: the larger of the last
`'.'` and the last newline position of the current window. -/
def breakPoint (cs : Nat) (text : List Char) (start : Int) : Int :=
  max (rfindChar '.' (window cs text start))
    (rfindChar '\n' (window cs text start))

/-- Position `j` of `w` holds a sentence terminator `'.'` or a newline. -/
def IsBreakAt (w : List Char) (j : Nat) : Prop :=
  w.get? j = some '.' ∨ w.get? j = some '\n'

/-- `i` is, per the spec's words, the position of "the last `'.'` or
newline in the window": either `i = -1` and no position of `w` holds a
break character, or `i ≥ 0`, position `i` holds a break character, and no
later position does. -/
def IsLastBreak (w : List Char) (i : Int) : Prop :=
  (i = -1 ∧ ∀ j : Nat, ¬ IsBreakAt w j) ∨
  (0 ≤ i ∧ IsBreakAt w i.toNat ∧ ∀ j : Nat, i.toNat < j → ¬ IsBreakAt w j)

/-- Registry-record well-formedness established by ingestion: the record's
key is the document id, `chunk_count` equals the number of stored chunk
ids, and every stored chunk id belongs to this document. -/
def DocOk (p : String × Document) : Prop :=
  p.1 = p.2.id ∧ p.2.chunk_count = p.2.chunk_ids.length ∧
  ∀ cid ∈ p.2.chunk_ids, cid.doc = p.2.id

/-- The registry/index consistency invariant: the collection is
initialized, registry keys are distinct, every record is well formed, and
the multiset of ids stored in the index is exactly the chunk ids listed
across all registry records. -/
def Wf (st : EngineState) : Prop :=
  st.hasIndex = true ∧
  (st.documents.map Prod.fst).Nodup ∧
  (∀ p ∈ st.documents, DocOk p) ∧
  List.Perm (st.index.map ChunkEntry.id)
    ((st.documents.map (fun p => p.2.chunk_ids)).flatten)

/-- One successful engine operation: an ingest call that returns a
document (with a fresh uuid-generated document id, and an embedding
provider honouring its one-vector-per-input contract), or a delete call
whose `collection.delete` does not raise. -/
inductive OkOp (cfg : RAGConfig) : EngineState → EngineState → Prop
  | ingest : ∀ (st : EngineState) (call : IngestCall)
      (filename category context : String) (doc : Document) (st' : EngineState),
      st.documents.find? (fun p => p.1 == call.docId) = none →
      (∀ text chunks embs, call.extract = Except.ok text →
        chunk_text cfg.chunk_size cfg.chunk_overlap text = some chunks →
        call.embed = Except.ok embs → chunks.length ≤ embs.length) →
      ingest_document cfg st call filename category context
        = some (Except.ok doc, st') →
      OkOp cfg st st'
  | del : ∀ (st : EngineState) (docId : String) (b : Bool) (st' : EngineState),
      delete_document st docId false = (b, st') →
      OkOp cfg st st'

/-- A finite sequence of successful engine operations. -/
inductive OkRun (cfg : RAGConfig) : EngineState → EngineState → Prop
  | refl : ∀ st, OkRun cfg st st
  | tail : ∀ st st' st'', OkRun cfg st st' → OkOp cfg st' st'' → OkRun cfg st st''

/-- A sample registered document used by concrete witnesses. -/
def sampleDoc : Document :=
  ⟨"d1", "f.txt", ['h'], "general", "Global", 1, [⟨"d1", 0⟩]⟩

/-- The index record of `sampleDoc`'s single chunk. -/
def sampleEntry : ChunkEntry := ⟨⟨"d1", 0⟩, "d1", ['h'], []⟩

/-- A one-document engine state used by concrete witnesses. -/
def sampleState : EngineState := ⟨[("d1", sampleDoc)], [sampleEntry], [], true⟩

/-! ## Helper lemmas about the Python string primitives -/

theorem pySlice_all (s : List Char) (b : Int) (hb : (s.length : Int) ≤ b) :
    pySlice s 0 b = s := by
  have h0 : ¬ ((0:Int) < 0) := by omega
  have hbn : ¬ (b < 0) := by omega
  unfold pySlice pyIdx
  simp only [if_neg h0, if_neg hbn]
  have h1 : min (0:Int).toNat s.length = 0 := by omega
  have h2 : min b.toNat s.length = s.length := by omega
  rw [h1, h2, List.drop_zero, Nat.sub_zero, List.take_length]

/-- When the window does not need truncation and covers the whole rest of
the text, the step returns the full suffix and `end = start + chunk_size`. -/
theorem chunkStep_whole (cs : Nat) (s : List Char) (hle : s.length ≤ cs) :
    chunkStep cs s 0 = (s, (cs : Int)) := by
  have hb : (s.length : Int) ≤ (0:Int) + cs := by omega
  have hlt : ¬ ((0:Int) + (cs:Int) < (s.length : Int)) := by omega
  simp only [chunkStep]
  rw [if_neg hlt, pySlice_all s _ hb]
  norm_num

theorem toNat_max_zero (x : Int) : (max x 0).toNat = x.toNat := by
  rcases le_total x 0 with h | h
  · rw [max_eq_right h]; omega
  · rw [max_eq_left h]

theorem pyIdx_sub_le (len : Nat) (a b : Int) (hab : a ≤ b) :
    pyIdx len b - pyIdx len a ≤ (b - a).toNat := by
  unfold pyIdx
  rw [toNat_max_zero, toNat_max_zero]
  split <;> split <;> omega

theorem pySlice_length_le (s : List Char) (a b : Int) (hab : a ≤ b) :
    (pySlice s a b).length ≤ (b - a).toNat := by
  unfold pySlice
  simp only [List.length_take, List.length_drop]
  have := pyIdx_sub_le s.length a b hab
  omega

/-- Every chunk cut by one step of the loop has at most `chunk_size`
characters: truncation at a sentence boundary only shortens the window. -/
theorem chunkStep_fst_length_le (cs : Nat) (text : List Char) (start : Int) :
    ((chunkStep cs text start).1).length ≤ cs := by
  have h := pySlice_length_le text start (start + cs) (by omega)
  have h2 : ((start : Int) + cs - start).toNat = cs := by omega
  rw [h2] at h
  simp only [chunkStep]
  split
  · split
    · rw [List.length_take]
      exact le_trans (min_le_right _ _) h
    · exact h
  · exact h

theorem pyStrip_length_le (s : List Char) : (pyStrip s).length ≤ s.length := by
  unfold pyStrip
  simp only [List.length_reverse]
  exact le_trans ((List.dropWhile_sublist _).length_le)
    (by simpa using (List.dropWhile_sublist (l := s) Char.isWhitespace).length_le)

theorem rfindChar_ge (c : Char) (s : List Char) : -1 ≤ rfindChar c s := by
  induction s with
  | nil => norm_num [rfindChar]
  | cons x xs ih =>
    simp only [rfindChar]
    split
    · split <;> omega
    · omega

theorem rfindChar_lt (c : Char) (s : List Char) :
    rfindChar c s < (s.length : Int) := by
  induction s with
  | nil => norm_num [rfindChar]
  | cons x xs ih =>
    simp only [rfindChar, List.length_cons]
    push_cast
    split
    · split <;> omega
    · omega

/-- `rfind` characterization: either the needle does not occur (`-1`), or
the result is an occurrence with no occurrence after it. -/
theorem rfindChar_spec (c : Char) (s : List Char) :
    (rfindChar c s = -1 ∧ ∀ j : Nat, s.get? j ≠ some c) ∨
    (0 ≤ rfindChar c s ∧ s.get? (rfindChar c s).toNat = some c ∧
      ∀ j : Nat, (rfindChar c s).toNat < j → s.get? j ≠ some c) := by
  induction s with
  | nil => exact Or.inl ⟨rfl, fun j => by simp⟩
  | cons x xs ih =>
    by_cases hr : rfindChar c xs = -1
    · have hnone : ∀ j : Nat, xs.get? j ≠ some c := by
        rcases ih with ⟨-, h⟩ | ⟨hge, -, -⟩
        · exact h
        · omega
      by_cases hx : x = c
      · right
        have heq : rfindChar c (x :: xs) = 0 := by
          simp [rfindChar, hr, hx]
        rw [heq]
        refine ⟨le_refl 0, by simp [hx], fun j hj => ?_⟩
        cases j with
        | zero => omega
        | succ m => simpa using hnone m
      · left
        have heq : rfindChar c (x :: xs) = -1 := by
          simp [rfindChar, hr, hx]
        rw [heq]
        refine ⟨rfl, fun j => ?_⟩
        cases j with
        | zero => simpa using hx
        | succ m => simpa using hnone m
    · rcases ih with ⟨h1, -⟩ | ⟨hge, hget, hafter⟩
      · exact absurd h1 hr
      right
      have heq : rfindChar c (x :: xs) = rfindChar c xs + 1 := by
        simp [rfindChar, hr]
      have htn : (rfindChar c xs + 1).toNat = (rfindChar c xs).toNat + 1 := by
        omega
      rw [heq, htn]
      refine ⟨by omega, by simpa using hget, fun j hj => ?_⟩
      cases j with
      | zero => omega
      | succ m => simpa using hafter m (by omega)

/-- The code's `max(chunk.rfind('.'), chunk.rfind('\n'))` is exactly the
last sentence-boundary position of the window in the sense of the spec. -/
theorem isLastBreak_max (w : List Char) :
    IsLastBreak w (max (rfindChar '.' w) (rfindChar '\n' w)) := by
  rcases rfindChar_spec '.' w with ⟨hd, hdnone⟩ | ⟨hdge, hdget, hdafter⟩ <;>
    rcases rfindChar_spec '\n' w with ⟨hn, hnnone⟩ | ⟨hnge, hnget, hnafter⟩
  · left
    rw [hd, hn]
    exact ⟨max_self _, fun j hj => hj.elim (hdnone j) (hnnone j)⟩
  · right
    have heq : max (rfindChar '.' w) (rfindChar '\n' w) = rfindChar '\n' w := by
      rw [hd]; exact max_eq_right (by omega)
    rw [heq]
    exact ⟨hnge, Or.inr hnget,
      fun j hj h => h.elim (hdnone j) (hnafter j hj)⟩
  · right
    have heq : max (rfindChar '.' w) (rfindChar '\n' w) = rfindChar '.' w := by
      rw [hn]; exact max_eq_left (by omega)
    rw [heq]
    exact ⟨hdge, Or.inl hdget,
      fun j hj h => h.elim (hdafter j hj) (hnnone j)⟩
  · right
    rcases le_total (rfindChar '.' w) (rfindChar '\n' w) with hle | hle
    · have heq : max (rfindChar '.' w) (rfindChar '\n' w) = rfindChar '\n' w :=
        max_eq_right hle
      rw [heq]
      refine ⟨hnge, Or.inr hnget, fun j hj h => ?_⟩
      exact h.elim (hdafter j (by omega)) (hnafter j hj)
    · have heq : max (rfindChar '.' w) (rfindChar '\n' w) = rfindChar '.' w :=
        max_eq_left hle
      rw [heq]
      refine ⟨hdge, Or.inl hdget, fun j hj h => ?_⟩
      exact h.elim (hdafter j hj) (hnafter j (by omega))

theorem pySlice_window_length (s : List Char) (a : Int) (cs : Nat)
    (h0 : 0 ≤ a) (hcut : a + (cs:Int) ≤ (s.length : Int)) :
    (pySlice s a (a + cs)).length = cs := by
  simp only [pySlice, pyIdx]
  rw [if_neg (by omega), if_neg (by omega)]
  simp only [List.length_take, List.length_drop]
  omega

theorem chunkLoop_length_le (cs ov : Nat) (text : List Char) :
    ∀ (fuel : Nat) (start : Int) (acc res : List (List Char)),
    (∀ c ∈ acc, c.length ≤ cs) →
    chunkLoop cs ov text fuel start acc = some res →
    ∀ c ∈ res, c.length ≤ cs := by
  intro fuel
  induction fuel with
  | zero =>
    intro start acc res hacc h
    exact absurd h (by simp [chunkLoop])
  | succ n ih =>
    intro start acc res hacc h
    rw [chunkLoop] at h
    split at h
    · refine ih _ _ _ ?_ h
      intro c hc
      rcases List.mem_append.mp hc with h1 | h1
      · exact hacc c h1
      · rw [List.mem_singleton.mp h1]
        exact le_trans (pyStrip_length_le _) (chunkStep_fst_length_le _ _ _)
    · injection h with h
      subst h
      intro c hc
      exact hacc c (List.mem_of_mem_filter hc)

/-- Mapping scores over the kept hits preserves sortedness: hit distances
in non-decreasing order give scores `1 - distance` in non-increasing
order, and dropping sub-threshold hits keeps the order. -/
theorem sorted_filterMap_scores (th : ℚ) (hits : List QueryHit)
    (hs : List.Sorted (· ≤ ·) (hits.map QueryHit.distance)) :
    List.Sorted (· ≥ ·) ((hits.filterMap (fun h =>
      if th ≤ 1 - h.distance then
        some (⟨h.id, h.document_id, h.content, 1 - h.distance⟩ : SearchResult)
      else none)).map SearchResult.score) := by
  induction hits with
  | nil => simp
  | cons h rest ih =>
    rw [List.map_cons, List.sorted_cons] at hs
    obtain ⟨hall, hrest⟩ := hs
    rw [List.filterMap_cons]
    split
    · exact ih hrest
    · rename_i val heq
      rcases Decidable.em (th ≤ 1 - h.distance) with hc | hc
      · rw [if_pos hc] at heq
        injection heq with heq2
        subst heq2
        rw [List.map_cons, List.sorted_cons]
        refine ⟨?_, ih hrest⟩
        intro b hb
        rw [List.mem_map] at hb
        obtain ⟨r, hr, rfl⟩ := hb
        rw [List.mem_filterMap] at hr
        obtain ⟨h2, hh2, hfh2⟩ := hr
        rcases Decidable.em (th ≤ 1 - h2.distance) with hc2 | hc2
        · rw [if_pos hc2] at hfh2
          injection hfh2 with hfh3
          subst hfh3
          have hd : h.distance ≤ h2.distance :=
            hall _ (List.mem_map.mpr ⟨h2, hh2, rfl⟩)
          show (1 : ℚ) - h.distance ≥ 1 - h2.distance
          linarith
        · rw [if_neg hc2] at hfh2
          exact absurd hfh2 (by simp)
      · rw [if_neg hc] at heq
        exact absurd heq (by simp)

/-- When the chunk-write loop succeeds it has written one record per
pair, the collected ids are exactly the written records' ids, they all
belong to the ingested document with indices from `i` on, and the
configured failure point (if any) lies outside the written range. -/
theorem addChunks_ok (d : String) (failAt : Option Nat) :
    ∀ (pairs : List (List Char × Emb)) (i : Nat) (cids : List ChunkId),
    (addChunks d failAt i pairs).2 = Except.ok cids →
    (addChunks d failAt i pairs).1.map ChunkEntry.id = cids ∧
    (addChunks d failAt i pairs).1.length = pairs.length ∧
    cids.length = pairs.length ∧
    (∀ cid ∈ cids, cid.doc = d ∧ i ≤ cid.idx) ∧
    (∀ j, failAt = some j → j < i ∨ i + pairs.length ≤ j) := by
  intro pairs
  induction pairs with
  | nil =>
    intro i cids h
    simp only [addChunks] at h ⊢
    injection h with h2
    subst h2
    exact ⟨rfl, rfl, rfl, by simp,
      fun j hj => by simp only [List.length_nil]; omega⟩
  | cons p rest ih =>
    intro i cids h
    simp only [addChunks] at h ⊢
    by_cases hf : failAt = some i
    · rw [if_pos hf] at h
      exact absurd h (by simp)
    · rw [if_neg hf] at h ⊢
      cases hr : (addChunks d failAt (i + 1) rest).2 with
      | error e =>
        rw [hr] at h
        exact absurd h (by simp [Except.map])
      | ok ids =>
        rw [hr] at h
        simp only [Except.map] at h
        injection h with h2
        obtain ⟨hmap, hlen, hclen, hmem, hfail⟩ := ih (i + 1) ids hr
        subst h2
        refine ⟨?_, ?_, ?_, ?_, ?_⟩
        · rw [List.map_cons, hmap]
        · simp [hlen]
        · simp [hclen]
        · intro cid hc
          rcases List.mem_cons.mp hc with rfl | hc2
          · exact ⟨rfl, le_refl i⟩
          · obtain ⟨h1, h2⟩ := hmem cid hc2
            exact ⟨h1, by omega⟩
        · intro j hj
          have hne : j ≠ i := fun he => hf (he ▸ hj)
          simp only [List.length_cons]
          rcases hfail j hj with h1 | h1 <;> [left; right] <;> omega

/-- Structure of a successful ingest: all collaborator outcomes were
successes, the chunk-write loop succeeded, and the final state appends the
written records to the store and the new record to the registry. -/
theorem ingest_ok_shape (cfg : RAGConfig) (st : EngineState)
    (call : IngestCall) (fn cat ctx : String) (doc : Document)
    (st' : EngineState)
    (h : ingest_document cfg st call fn cat ctx = some (Except.ok doc, st')) :
    ∃ text chunks embs cids,
      call.extract = Except.ok text ∧
      chunk_text cfg.chunk_size cfg.chunk_overlap text = some chunks ∧
      call.embed = Except.ok embs ∧
      (addChunks call.docId (if st.hasIndex then call.writeFail else none) 0
          (chunks.zip embs)).2 = Except.ok cids ∧
      doc = ⟨call.docId, fn, text.take 1000, cat, ctx, chunks.length, cids⟩ ∧
      st' = ⟨dictInsert st.documents call.docId doc,
             if st.hasIndex then
               st.index ++ (addChunks call.docId
                 (if st.hasIndex then call.writeFail else none) 0
                 (chunks.zip embs)).1
             else st.index,
             if st.hasIndex then st.fallback
             else st.fallback ++ (addChunks call.docId
               (if st.hasIndex then call.writeFail else none) 0
               (chunks.zip embs)).1,
             st.hasIndex⟩ := by
  unfold ingest_document at h
  cases hex : call.extract with
  | error e =>
    rw [hex] at h
    simp only [] at h
    injection h with h2
    rw [Prod.mk.injEq] at h2
    exact absurd h2.1 (by simp)
  | ok text =>
    rw [hex] at h
    simp only [] at h
    cases hch : chunk_text cfg.chunk_size cfg.chunk_overlap text with
    | none =>
      rw [hch] at h
      exact absurd h (by simp)
    | some chunks =>
      rw [hch] at h
      simp only [] at h
      cases hem : call.embed with
      | error e =>
        rw [hem] at h
        simp only [] at h
        injection h with h2
        rw [Prod.mk.injEq] at h2
        exact absurd h2.1 (by simp)
      | ok embs =>
        rw [hem] at h
        simp only [] at h
        cases hw : (addChunks call.docId
            (if st.hasIndex then call.writeFail else none) 0
            (chunks.zip embs)).2 with
        | error e =>
          rw [hw] at h
          simp only [] at h
          injection h with h2
          rw [Prod.mk.injEq] at h2
          exact absurd h2.1 (by simp)
        | ok cids =>
          rw [hw] at h
          simp only [] at h
          injection h with h2
          rw [Prod.mk.injEq] at h2
          obtain ⟨hdoc, hst⟩ := h2
          injection hdoc with hdoc
          rw [hdoc] at hst
          exact ⟨text, chunks, embs, cids, rfl, hch, rfl, hw,
            hdoc.symm, hst.symm⟩

/-! ## Registry/index invariant lemmas -/

theorem dictInsert_fresh (l : List (String × Document)) (k : String)
    (v : Document) (h : l.find? (fun p => p.1 == k) = none) :
    dictInsert l k v = l ++ [(k, v)] := by
  unfold dictInsert
  rw [if_neg]
  intro hany
  rw [List.any_eq_true] at hany
  obtain ⟨p, hp, hpk⟩ := hany
  rw [List.find?_eq_none] at h
  exact h p hp hpk

/-- A found binding can be split off the registry: with distinct keys, the
registry is a permutation of the found binding consed onto the erased
registry. -/
theorem perm_cons_dictErase (l : List (String × Document)) (k : String)
    (p : String × Document) (hnd : (l.map Prod.fst).Nodup)
    (hf : l.find? (fun q => q.1 == k) = some p) :
    List.Perm l (p :: dictErase l k) := by
  induction l with
  | nil => simp at hf
  | cons q t ih =>
    rw [List.map_cons, List.nodup_cons] at hnd
    obtain ⟨hq, hnd2⟩ := hnd
    by_cases hqk : (q.1 == k) = true
    · rw [List.find?_cons_of_pos (p := fun q => q.1 == k) t hqk] at hf
      injection hf with hf
      subst hf
      have hkeq : q.1 = k := by simpa using hqk
      have ht : dictErase (q :: t) k = t := by
        unfold dictErase
        rw [List.filter_cons, if_neg (by simp [hqk])]
        rw [List.filter_eq_self]
        intro x hx
        have hxk : x.1 ≠ k := by
          intro he
          apply hq
          rw [hkeq, ← he]
          exact List.mem_map_of_mem Prod.fst hx
        simp [hxk]
      rw [ht]
    · rw [List.find?_cons_of_neg (p := fun q => q.1 == k) t hqk] at hf
      have hperm := ih hnd2 hf
      have ht : dictErase (q :: t) k = q :: dictErase t k := by
        unfold dictErase
        rw [List.filter_cons, if_pos (by simp [Bool.not_eq_true] at hqk ⊢; exact hqk)]
      rw [ht]
      exact List.Perm.trans (hperm.cons q) (List.Perm.swap p q _)

theorem filter_map_entry_id (cids : List ChunkId) (l : List ChunkEntry) :
    (l.filter (fun e => decide (e.id ∉ cids))).map ChunkEntry.id
      = (l.map ChunkEntry.id).filter (fun x => decide (x ∉ cids)) := by
  induction l with
  | nil => rfl
  | cons e t ih =>
    rw [List.map_cons, List.filter_cons, List.filter_cons]
    by_cases hc : e.id ∈ cids
    · rw [if_neg (by simp [hc]), if_neg (by simp [hc]), ih]
    · rw [if_pos (by simp [hc]), if_pos (by simp [hc]), List.map_cons, ih]

/-- `ingest_ok_shape` specialised to an initialized collection. -/
theorem ingest_ok_shape_idx (cfg : RAGConfig) (st : EngineState)
    (call : IngestCall) (fn cat ctx : String) (doc : Document)
    (st2 : EngineState) (hidx : st.hasIndex = true)
    (h : ingest_document cfg st call fn cat ctx = some (Except.ok doc, st2)) :
    ∃ text chunks embs cids,
      call.extract = Except.ok text ∧
      chunk_text cfg.chunk_size cfg.chunk_overlap text = some chunks ∧
      call.embed = Except.ok embs ∧
      (addChunks call.docId call.writeFail 0 (chunks.zip embs)).2
        = Except.ok cids ∧
      doc = ⟨call.docId, fn, text.take 1000, cat, ctx, chunks.length, cids⟩ ∧
      st2 = ⟨dictInsert st.documents call.docId doc,
             st.index ++ (addChunks call.docId call.writeFail 0
               (chunks.zip embs)).1,
             st.fallback, true⟩ := by
  obtain ⟨text, chunks, embs, cids, hex, hch, hem, hw, hdc, hst⟩ :=
    ingest_ok_shape cfg st call fn cat ctx doc st2 h
  rw [hidx] at hw hst
  simp only [if_true, eq_self_iff_true, ite_true] at hw hst
  exact ⟨text, chunks, embs, cids, hex, hch, hem, hw, hdc, hst⟩

/-- A successful ingest with a fresh document id and a contract-honouring
embedding provider preserves the registry/index invariant. -/
theorem wf_ingest (cfg : RAGConfig) (st : EngineState) (call : IngestCall)
    (fn cat ctx : String) (doc : Document) (st2 : EngineState)
    (hwf : Wf st)
    (hfresh : st.documents.find? (fun p => p.1 == call.docId) = none)
    (hlen : ∀ text chunks embs, call.extract = Except.ok text →
      chunk_text cfg.chunk_size cfg.chunk_overlap text = some chunks →
      call.embed = Except.ok embs → chunks.length ≤ embs.length)
    (h : ingest_document cfg st call fn cat ctx = some (Except.ok doc, st2)) :
    Wf st2 := by
  obtain ⟨hidx, hnd, hdoc, hperm⟩ := hwf
  obtain ⟨text, chunks, embs, cids, hex, hch, hem, hw, hdc, hst⟩ :=
    ingest_ok_shape_idx cfg st call fn cat ctx doc st2 hidx h
  obtain ⟨hmap, hwlen, hclen, hmem, -⟩ :=
    addChunks_ok call.docId call.writeFail (chunks.zip embs) 0 cids hw
  have hzlen : (chunks.zip embs).length = chunks.length := by
    rw [List.length_zip]
    exact min_eq_left (hlen text chunks embs hex hch hem)
  have hins : dictInsert st.documents call.docId doc
      = st.documents ++ [(call.docId, doc)] := dictInsert_fresh _ _ _ hfresh
  have hkey : call.docId ∉ st.documents.map Prod.fst := by
    rw [List.find?_eq_none] at hfresh
    intro hk
    rw [List.mem_map] at hk
    obtain ⟨p, hp, hpk⟩ := hk
    exact hfresh p hp (by simp [hpk])
  subst hst
  refine ⟨rfl, ?_, ?_, ?_⟩
  · show ((dictInsert st.documents call.docId doc).map Prod.fst).Nodup
    rw [hins, List.map_append, List.map_cons, List.map_nil]
    rw [List.nodup_append]
    refine ⟨hnd, List.nodup_singleton _, ?_⟩
    intro a ha hb
    rw [List.mem_singleton] at hb
    subst hb
    exact hkey ha
  · show ∀ p ∈ dictInsert st.documents call.docId doc, DocOk p
    rw [hins]
    intro p hp
    rcases List.mem_append.mp hp with hp1 | hp1
    · exact hdoc p hp1
    · rw [List.mem_singleton] at hp1
      subst hp1
      subst hdc
      refine ⟨rfl, ?_, ?_⟩
      · show chunks.length = cids.length
        omega
      · intro cid hc
        exact (hmem cid hc).1
  · show List.Perm ((st.index ++ (addChunks call.docId call.writeFail 0
        (chunks.zip embs)).1).map ChunkEntry.id)
      (((dictInsert st.documents call.docId doc).map
        (fun p => p.2.chunk_ids)).flatten)
    rw [hins]
    rw [List.map_append, List.map_append, List.map_cons, List.map_nil,
      List.flatten_append, hmap]
    have hdocids : ((call.docId, doc)).2.chunk_ids = cids := by rw [hdc]
    rw [List.flatten_cons, List.flatten_nil, List.append_nil, hdocids]
    exact hperm.append_right cids

/-- `delete_document` with a non-failing index delete preserves the
registry/index invariant. -/
theorem wf_delete (st : EngineState) (docId : String) (b : Bool)
    (st2 : EngineState) (hwf : Wf st)
    (h : delete_document st docId false = (b, st2)) : Wf st2 := by
  obtain ⟨hidx, hnd, hdoc, hperm⟩ := hwf
  unfold delete_document at h
  cases hf : st.documents.find? (fun p => p.1 == docId) with
  | none =>
    rw [hf] at h
    injection h with h1 h2
    rw [← h2]
    exact ⟨hidx, hnd, hdoc, hperm⟩
  | some p =>
    rw [hf] at h
    simp only [] at h
    have hpmem : p ∈ st.documents := List.mem_of_find?_eq_some hf
    have hpk : p.1 = docId := by simpa using List.find?_some hf
    obtain ⟨hpid, hpcnt, hpcids⟩ := hdoc p hpmem
    have hpermdocs : List.Perm st.documents (p :: dictErase st.documents docId) :=
      perm_cons_dictErase st.documents docId p hnd hf
    have herase_sub : ∀ q ∈ dictErase st.documents docId, q ∈ st.documents :=
      fun q hq => List.mem_of_mem_filter hq
    have herase_key : ∀ q ∈ dictErase st.documents docId, q.1 ≠ docId := by
      intro q hq
      have := List.of_mem_filter hq
      simpa using this
    have hnd2 : ((dictErase st.documents docId).map Prod.fst).Nodup :=
      hnd.sublist (List.Sublist.map _ (List.filter_sublist _))
    have hflat : List.Perm
        ((st.documents.map (fun p => p.2.chunk_ids)).flatten)
        (p.2.chunk_ids ++ ((dictErase st.documents docId).map
          (fun p => p.2.chunk_ids)).flatten) := by
      have h2 := (hpermdocs.map (fun p => p.2.chunk_ids)).flatten
      simpa using h2
    have hdisj : ∀ x ∈ ((dictErase st.documents docId).map
        (fun p => p.2.chunk_ids)).flatten, x ∉ p.2.chunk_ids := by
      intro x hx hxp
      rw [List.mem_flatten] at hx
      obtain ⟨l2, hl2, hxl2⟩ := hx
      rw [List.mem_map] at hl2
      obtain ⟨q, hq, hql⟩ := hl2
      subst hql
      obtain ⟨hqid, -, hqcids⟩ := hdoc q (herase_sub q hq)
      apply herase_key q hq
      rw [hqid, ← hqcids x hxl2, hpcids x hxp, ← hpid, hpk]
    by_cases hne : p.2.chunk_ids = []
    · rw [if_neg (fun hcon => hcon.2 hne)] at h
      injection h with h1 h2
      rw [← h2]
      refine ⟨hidx, hnd2, fun q hq => hdoc q (herase_sub q hq), ?_⟩
      have hflat2 := hflat
      rw [hne, List.nil_append] at hflat2
      exact hperm.trans hflat2
    · rw [if_pos ⟨hidx, hne⟩] at h
      rw [if_neg (by simp)] at h
      injection h with h1 h2
      rw [← h2]
      refine ⟨hidx, hnd2, fun q hq => hdoc q (herase_sub q hq), ?_⟩
      show List.Perm ((st.index.filter
          (fun e => decide (e.id ∉ p.2.chunk_ids))).map ChunkEntry.id) _
      rw [filter_map_entry_id]
      refine (hperm.filter _).trans ?_
      refine (hflat.filter _).trans ?_
      rw [List.filter_append]
      rw [List.filter_eq_nil_iff.mpr (by intro a ha; simp [ha])]
      rw [List.nil_append]
      rw [List.filter_eq_self.mpr (by intro a ha; simpa using hdisj a ha)]

theorem okOp_wf (cfg : RAGConfig) (st st2 : EngineState) (hwf : Wf st)
    (hop : OkOp cfg st st2) : Wf st2 := by
  cases hop
  case ingest call fn cat ctx doc hfresh hlen h =>
    exact wf_ingest cfg st call fn cat ctx doc st2 hwf hfresh hlen h
  case del docId b h =>
    exact wf_delete st docId b st2 hwf h

theorem okRun_wf (cfg : RAGConfig) (st st2 : EngineState)
    (h : OkRun cfg st st2) (hwf : Wf st) : Wf st2 := by
  induction h with
  | refl => exact hwf
  | tail s2 s3 hrun hop ih => exact okOp_wf cfg s2 s3 ih hop

theorem wf_emptyEngine : Wf emptyEngine :=
  ⟨rfl, List.nodup_nil, fun p hp => absurd hp (List.not_mem_nil p),
   List.Perm.refl _⟩

/-! ## Claim theorems -/

/-- C5: the spec requires `overlap >= chunk_size` to be rejected as a
configuration error, but `chunk_text` has no such guard: with
`chunk_size = overlap = 2` on the text `"a"` the loop re-enters forever
with `start = 0`, so no amount of fuel makes it terminate — the call
neither raises a configuration error nor produces output. -/
theorem chunk_text_overlap_guard_missing :
    (∀ (fuel : Nat) (acc : List (List Char)),
        chunkLoop 2 2 ['a'] fuel 0 acc = none) ∧
    chunk_text 2 2 ['a'] = none := by
  have hstep : ∀ (n : Nat) (acc : List (List Char)),
      chunkLoop 2 2 ['a'] (n + 1) 0 acc
        = chunkLoop 2 2 ['a'] n 0 (acc ++ [['a']]) := fun n acc => rfl
  have hall : ∀ (fuel : Nat) (acc : List (List Char)),
      chunkLoop 2 2 ['a'] fuel 0 acc = none := by
    intro fuel
    induction fuel with
    | zero => intro acc; rfl
    | succ n ih => intro acc; rw [hstep]; exact ih _
  exact ⟨hall, hall 2 []⟩

/-- C10: passing `top_k = 0` or `score_threshold = 0.0` to `search` is
indistinguishable from omitting the argument: the falsy value is replaced
by the configured default, so a caller cannot request zero results nor
disable the score threshold by passing `0`. -/
theorem search_falsy_args_use_defaults (cfg : RAGConfig) (st : EngineState)
    (embedQuery : Except Unit Emb) (query : Nat → Except Unit (List QueryHit))
    (tk : Option Nat) (th : Option ℚ) :
    search cfg st embedQuery query (some 0) th
      = search cfg st embedQuery query none th ∧
    search cfg st embedQuery query tk (some 0)
      = search cfg st embedQuery query tk none ∧
    pyOrNat (some 0) cfg.top_k = cfg.top_k ∧
    pyOrRat (some 0) cfg.score_threshold = cfg.score_threshold := by
  refine ⟨?_, ?_, rfl, rfl⟩ <;> simp [search, pyOrNat, pyOrRat]

/-- C2 counterexample: the claim "a fault raised by an initialized index
during the query is surfaced to the caller" is false: `search` catches the
query exception and returns `Except.ok []`. -/
theorem search_swallows_index_fault :
    ¬ (∀ (st : EngineState) (query : Nat → Except Unit (List QueryHit)),
        st.hasIndex = true → query defaultConfig.top_k = Except.error () →
        ∃ e, search defaultConfig st (Except.ok []) query none none
          = Except.error e) := by
  intro hclaim
  obtain ⟨e, he⟩ := hclaim ⟨[], [], [], true⟩ (fun _ => Except.error ()) rfl rfl
  have h2 : Except.ok ([] : List SearchResult) = Except.error e := he
  exact Except.noConfusion h2

/-- C2 amended: when the initialized index raises during the query,
`search` catches the exception and returns an empty list without error
(exactly as in the never-initialized and no-match cases); index faults are
not surfaced. -/
theorem search_query_fault_returns_empty (cfg : RAGConfig) (st : EngineState)
    (v : Emb) (query : Nat → Except Unit (List QueryHit))
    (tk : Option Nat) (th : Option ℚ)
    (hidx : st.hasIndex = true)
    (hq : query (pyOrNat tk cfg.top_k) = Except.error ()) :
    search cfg st (Except.ok v) query tk th = Except.ok [] := by
  simp [search, hidx, hq]

/-- Witness for the amended C2 theorem at a concrete engine state. -/
theorem search_query_fault_returns_empty_witness :
    search defaultConfig emptyEngine (Except.ok [])
      (fun _ => Except.error ()) none none = Except.ok [] :=
  search_query_fault_returns_empty defaultConfig emptyEngine []
    (fun _ => Except.error ()) none none rfl rfl

/-- C6 counterexample: `" "` is a non-empty text shorter than
`chunk_size = 10`, yet the chunker returns zero chunks, not one: the
single window is whitespace-only and is dropped by the final filter. -/
theorem chunk_text_short_text_zero_chunks :
    chunk_text 10 2 [' '] = some [] ∧ ([' '] : List Char) ≠ [] ∧
    ([' '] : List Char).length < 10 :=
  ⟨rfl, by decide, by decide⟩

/-- C6 amended: for a text whose length is at most
`chunk_size - overlap` the chunker performs exactly one window pass and
returns the single whitespace-trimmed chunk when it is non-empty (in
particular exactly one chunk whenever the text contains a non-whitespace
character) and zero chunks when the text is empty or whitespace-only. -/
theorem chunk_text_single_window (cs ov : Nat) (text : List Char)
    (h : text.length + ov ≤ cs) :
    chunk_text cs ov text
      = some (if pyStrip text = [] then [] else [pyStrip text]) := by
  cases text with
  | nil => rfl
  | cons a t =>
    have hle : (a :: t).length ≤ cs := le_trans (Nat.le_add_right _ _) h
    show chunkLoop cs ov (a :: t) (t.length + 1 + 1) 0 [] = _
    rw [chunkLoop]
    rw [if_pos (by exact_mod_cast t.length.succ_pos :
      (0:Int) < ((a :: t).length : Int))]
    rw [nextStart, chunkStep_whole cs (a :: t) hle]
    rw [chunkLoop]
    rw [if_neg (by omega :
      ¬ ((cs:Int) - (ov:Int) < ((a :: t).length : Int)))]
    by_cases hs : pyStrip (a :: t) = [] <;>
      simp [hs, List.filter_cons, List.isEmpty_iff]

/-- Witness for the amended C6 theorem: a three-character text with
`chunk_size = 10`, `overlap = 2` yields exactly the one stripped chunk. -/
theorem chunk_text_single_window_witness :
    chunk_text 10 2 ['h', 'i', '.']
      = some (if pyStrip ['h', 'i', '.'] = [] then []
              else [pyStrip ['h', 'i', '.']]) :=
  chunk_text_single_window 10 2 ['h', 'i', '.'] (by decide)

/-- C9: whenever `chunk_text` terminates, every produced chunk — the final
one included — has at most `chunk_size` characters, which is stronger than
the claimed bound of `chunk_size` plus the sentence-boundary search window
(the search window is the chunk itself, so it adds nothing). -/
theorem chunk_text_chunks_within_chunk_size (cs ov : Nat) (text : List Char)
    (res : List (List Char)) (h : chunk_text cs ov text = some res) :
    ∀ c ∈ res, c.length ≤ cs :=
  chunkLoop_length_le cs ov text _ 0 [] res (by simp) h

/-- C4: for a window that does not reach the end of the text, the code's
`break_point` is exactly the position of the last `'.'` or newline in the
`chunk_size`-character window; the chunk is truncated to end at that
character (inclusive) exactly when the break position exceeds
`chunk_size * 0.5`; and the next window starts at the actual end of the
possibly-shortened chunk minus `overlap`, not at
`start + chunk_size - overlap`. -/
theorem chunkStep_sentence_boundary (cs ov : Nat) (text : List Char)
    (start : Int) (h0 : 0 ≤ start)
    (hcut : start + (cs:Int) < (text.length : Int)) :
    (window cs text start).length = cs ∧
    IsLastBreak (window cs text start) (breakPoint cs text start) ∧
    (2 * breakPoint cs text start > (cs:Int) →
      (chunkStep cs text start).1
        = (window cs text start).take ((breakPoint cs text start).toNat + 1)) ∧
    (¬ 2 * breakPoint cs text start > (cs:Int) →
      (chunkStep cs text start).1 = window cs text start) ∧
    nextStart cs ov text start
      = start + (((chunkStep cs text start).1).length : Int) - ov := by
  have hw : (window cs text start).length = cs :=
    pySlice_window_length text start cs h0 (le_of_lt hcut)
  have hlast : IsLastBreak (window cs text start) (breakPoint cs text start) :=
    isLastBreak_max _
  have hbp_lt : breakPoint cs text start < (cs:Int) := by
    have h1 := rfindChar_lt '.' (window cs text start)
    have h2 := rfindChar_lt '\n' (window cs text start)
    rw [hw] at h1 h2
    exact max_lt h1 h2
  by_cases htr : 2 * breakPoint cs text start > (cs:Int)
  · have hstep : chunkStep cs text start
        = ((window cs text start).take ((breakPoint cs text start).toNat + 1),
           start + (((window cs text start).take
             ((breakPoint cs text start).toNat + 1)).length : Int)) := by
      simp only [chunkStep, window, breakPoint] at htr ⊢
      rw [if_pos hcut, if_pos htr]
    have hlen : ((window cs text start).take
        ((breakPoint cs text start).toNat + 1)).length
        = (breakPoint cs text start).toNat + 1 := by
      rw [List.length_take]
      omega
    refine ⟨hw, hlast, fun _ => by rw [hstep], fun h => absurd htr h, ?_⟩
    rw [nextStart, hstep, hlen]
  · have hstep : chunkStep cs text start = (window cs text start, start + cs) := by
      simp only [chunkStep, window, breakPoint] at htr ⊢
      rw [if_pos hcut, if_neg htr]
    refine ⟨hw, hlast, fun h => absurd h htr, fun _ => by rw [hstep], ?_⟩
    rw [nextStart, hstep, hw]

/-- Witness for the C4 theorem: with `chunk_size = 10`, `overlap = 2` on a
17-character text whose window holds a `'.'` at position 6, the chunk is
truncated at the period and the next start is measured from the truncated
end. -/
theorem chunkStep_sentence_boundary_witness :
    (window 10 ['a', 'b', 'c', 'd', 'e', 'f', '.', 'g', 'h', 'i', 'j', 'k',
        'l', 'm', 'n', 'o', 'p'] 0).length = 10 ∧
    IsLastBreak (window 10 ['a', 'b', 'c', 'd', 'e', 'f', '.', 'g', 'h', 'i',
        'j', 'k', 'l', 'm', 'n', 'o', 'p'] 0)
      (breakPoint 10 ['a', 'b', 'c', 'd', 'e', 'f', '.', 'g', 'h', 'i', 'j',
        'k', 'l', 'm', 'n', 'o', 'p'] 0) ∧
    (2 * breakPoint 10 ['a', 'b', 'c', 'd', 'e', 'f', '.', 'g', 'h', 'i',
        'j', 'k', 'l', 'm', 'n', 'o', 'p'] 0 > (10:Int) →
      (chunkStep 10 ['a', 'b', 'c', 'd', 'e', 'f', '.', 'g', 'h', 'i', 'j',
        'k', 'l', 'm', 'n', 'o', 'p'] 0).1
        = (window 10 ['a', 'b', 'c', 'd', 'e', 'f', '.', 'g', 'h', 'i', 'j',
            'k', 'l', 'm', 'n', 'o', 'p'] 0).take
          ((breakPoint 10 ['a', 'b', 'c', 'd', 'e', 'f', '.', 'g', 'h', 'i',
            'j', 'k', 'l', 'm', 'n', 'o', 'p'] 0).toNat + 1)) ∧
    (¬ 2 * breakPoint 10 ['a', 'b', 'c', 'd', 'e', 'f', '.', 'g', 'h', 'i',
        'j', 'k', 'l', 'm', 'n', 'o', 'p'] 0 > (10:Int) →
      (chunkStep 10 ['a', 'b', 'c', 'd', 'e', 'f', '.', 'g', 'h', 'i', 'j',
        'k', 'l', 'm', 'n', 'o', 'p'] 0).1
        = window 10 ['a', 'b', 'c', 'd', 'e', 'f', '.', 'g', 'h', 'i', 'j',
            'k', 'l', 'm', 'n', 'o', 'p'] 0) ∧
    nextStart 10 2 ['a', 'b', 'c', 'd', 'e', 'f', '.', 'g', 'h', 'i', 'j',
        'k', 'l', 'm', 'n', 'o', 'p'] 0
      = 0 + (((chunkStep 10 ['a', 'b', 'c', 'd', 'e', 'f', '.', 'g', 'h',
          'i', 'j', 'k', 'l', 'm', 'n', 'o', 'p'] 0).1).length : Int) - 2 :=
  chunkStep_sentence_boundary 10 2
    ['a', 'b', 'c', 'd', 'e', 'f', '.', 'g', 'h', 'i', 'j', 'k', 'l', 'm',
     'n', 'o', 'p'] 0 (by decide) (by decide)

/-- C7: with the index returning hits in non-decreasing distance order,
the scores of the returned results are monotonically non-increasing in the
returned order, every score is the raw distance converted as
`1 - distance`, every returned score is at least the effective
`score_threshold`, and every hit scoring below the threshold is dropped. -/
theorem search_ranking (cfg : RAGConfig) (st : EngineState) (v : Emb)
    (query : Nat → Except Unit (List QueryHit)) (tk : Option Nat)
    (th : Option ℚ) (hits : List QueryHit) (res : List SearchResult)
    (hidx : st.hasIndex = true)
    (hq : query (pyOrNat tk cfg.top_k) = Except.ok hits)
    (hsorted : List.Sorted (· ≤ ·) (hits.map QueryHit.distance))
    (hres : search cfg st (Except.ok v) query tk th = Except.ok res) :
    List.Sorted (· ≥ ·) (res.map SearchResult.score) ∧
    (∀ r ∈ res, pyOrRat th cfg.score_threshold ≤ r.score) ∧
    (∀ r ∈ res, ∃ h ∈ hits, r.score = 1 - h.distance) ∧
    (∀ h ∈ hits, 1 - h.distance < pyOrRat th cfg.score_threshold →
      (⟨h.id, h.document_id, h.content, 1 - h.distance⟩ : SearchResult)
        ∉ res) := by
  have hres2 : hits.filterMap (fun h =>
      if pyOrRat th cfg.score_threshold ≤ 1 - h.distance then
        some (⟨h.id, h.document_id, h.content, 1 - h.distance⟩ : SearchResult)
      else none) = res := by
    simpa [search, hidx, hq] using hres
  subst hres2
  refine ⟨sorted_filterMap_scores _ hits hsorted, ?_, ?_, ?_⟩
  · intro r hr
    rw [List.mem_filterMap] at hr
    obtain ⟨h, hh, hfh⟩ := hr
    rcases Decidable.em (pyOrRat th cfg.score_threshold ≤ 1 - h.distance)
      with hc | hc
    · rw [if_pos hc] at hfh
      injection hfh with hfh2
      subst hfh2
      exact hc
    · rw [if_neg hc] at hfh
      exact absurd hfh (by simp)
  · intro r hr
    rw [List.mem_filterMap] at hr
    obtain ⟨h, hh, hfh⟩ := hr
    rcases Decidable.em (pyOrRat th cfg.score_threshold ≤ 1 - h.distance)
      with hc | hc
    · rw [if_pos hc] at hfh
      injection hfh with hfh2
      subst hfh2
      exact ⟨h, hh, rfl⟩
    · rw [if_neg hc] at hfh
      exact absurd hfh (by simp)
  · intro h hh hlt hmem
    rw [List.mem_filterMap] at hmem
    obtain ⟨h2, hh2, hfh2⟩ := hmem
    rcases Decidable.em (pyOrRat th cfg.score_threshold ≤ 1 - h2.distance)
      with hc | hc
    · rw [if_pos hc] at hfh2
      injection hfh2 with hfh3
      rw [SearchResult.mk.injEq] at hfh3
      have hscore : (1:ℚ) - h2.distance = 1 - h.distance := hfh3.2.2.2
      rw [hscore] at hc
      linarith
    · rw [if_neg hc] at hfh2
      exact absurd hfh2 (by simp)

/-- Witness for the C7 theorem: two hits at distances `1/10` and `1/2`
under the default threshold `7/10` yield the single result scored `9/10`. -/
theorem search_ranking_witness :
    List.Sorted (· ≥ ·)
      (([⟨⟨"d", 0⟩, "d", [], 9/10⟩] : List SearchResult).map
        SearchResult.score) ∧
    (∀ r ∈ ([⟨⟨"d", 0⟩, "d", [], 9/10⟩] : List SearchResult),
      pyOrRat none defaultConfig.score_threshold ≤ r.score) ∧
    (∀ r ∈ ([⟨⟨"d", 0⟩, "d", [], 9/10⟩] : List SearchResult),
      ∃ h ∈ [(⟨⟨"d", 0⟩, "d", [], 1/10⟩ : QueryHit),
             ⟨⟨"d", 1⟩, "d", [], 1/2⟩], r.score = 1 - h.distance) ∧
    (∀ h ∈ [(⟨⟨"d", 0⟩, "d", [], 1/10⟩ : QueryHit),
            ⟨⟨"d", 1⟩, "d", [], 1/2⟩],
      1 - h.distance < pyOrRat none defaultConfig.score_threshold →
      (⟨h.id, h.document_id, h.content, 1 - h.distance⟩ : SearchResult)
        ∉ ([⟨⟨"d", 0⟩, "d", [], 9/10⟩] : List SearchResult)) :=
  search_ranking defaultConfig emptyEngine []
    (fun _ => Except.ok [⟨⟨"d", 0⟩, "d", [], 1/10⟩, ⟨⟨"d", 1⟩, "d", [], 1/2⟩])
    none none
    [⟨⟨"d", 0⟩, "d", [], 1/10⟩, ⟨⟨"d", 1⟩, "d", [], 1/2⟩]
    [⟨⟨"d", 0⟩, "d", [], 9/10⟩]
    rfl rfl (by norm_num [List.sorted_cons]) (by norm_num [search, emptyEngine, defaultConfig, pyOrRat, List.filterMap_cons])

/-- Witness for the C9 theorem at a concrete input. -/
theorem chunk_text_chunks_within_chunk_size_witness :
    chunk_text 5 1 ['a', 'b'] = some [['a', 'b']] ∧
    (['a', 'b'] : List Char).length ≤ 5 :=
  ⟨rfl, chunk_text_chunks_within_chunk_size 5 1 ['a', 'b'] [['a', 'b']]
    rfl ['a', 'b'] (by decide)⟩

/-- C1: ingestion is all-or-nothing for the registry: whenever extraction,
embedding or any chunk write raises, no `Document` record is added (the
registry and `get_metrics().total_documents` are unchanged), and a
returned document implies every chunk write succeeded before the record
was persisted. -/
theorem ingest_document_atomic (cfg : RAGConfig) (st : EngineState)
    (call : IngestCall) (fn cat ctx : String) (r : Except Unit Document)
    (st2 : EngineState)
    (h : ingest_document cfg st call fn cat ctx = some (r, st2)) :
    (∀ e, r = Except.error e →
      st2.documents = st.documents ∧
      (get_metrics st2).total_documents = (get_metrics st).total_documents) ∧
    (∀ doc, r = Except.ok doc →
      ∃ text chunks embs,
        call.extract = Except.ok text ∧
        chunk_text cfg.chunk_size cfg.chunk_overlap text = some chunks ∧
        call.embed = Except.ok embs ∧
        (addChunks call.docId (if st.hasIndex then call.writeFail else none) 0
            (chunks.zip embs)).2 = Except.ok doc.chunk_ids ∧
        (∀ j, (if st.hasIndex then call.writeFail else none) = some j →
          (chunks.zip embs).length ≤ j) ∧
        st2.documents = dictInsert st.documents call.docId doc) := by
  constructor
  · intro e hr
    subst hr
    unfold ingest_document at h
    cases hex : call.extract with
    | error e2 =>
      rw [hex] at h
      simp only [] at h
      injection h with h2
      rw [Prod.mk.injEq] at h2
      rw [← h2.2]
      exact ⟨rfl, rfl⟩
    | ok text =>
      rw [hex] at h
      simp only [] at h
      cases hch : chunk_text cfg.chunk_size cfg.chunk_overlap text with
      | none =>
        rw [hch] at h
        exact absurd h (by simp)
      | some chunks =>
        rw [hch] at h
        simp only [] at h
        cases hem : call.embed with
        | error e2 =>
          rw [hem] at h
          simp only [] at h
          injection h with h2
          rw [Prod.mk.injEq] at h2
          rw [← h2.2]
          exact ⟨rfl, rfl⟩
        | ok embs =>
          rw [hem] at h
          simp only [] at h
          cases hw : (addChunks call.docId
              (if st.hasIndex then call.writeFail else none) 0
              (chunks.zip embs)).2 with
          | error e2 =>
            rw [hw] at h
            simp only [] at h
            injection h with h2
            rw [Prod.mk.injEq] at h2
            rw [← h2.2]
            exact ⟨rfl, rfl⟩
          | ok cids =>
            rw [hw] at h
            simp only [] at h
            injection h with h2
            rw [Prod.mk.injEq] at h2
            exact absurd h2.1 (by simp)
  · intro doc hr
    subst hr
    obtain ⟨text, chunks, embs, cids, hex, hch, hem, hw, hdoc, hst⟩ :=
      ingest_ok_shape cfg st call fn cat ctx doc st2 h
    refine ⟨text, chunks, embs, hex, hch, hem, ?_, ?_, ?_⟩
    · rw [hw, hdoc]
    · intro j hj
      obtain ⟨-, -, -, -, hfail⟩ :=
        addChunks_ok call.docId
          (if st.hasIndex then call.writeFail else none)
          (chunks.zip embs) 0 cids hw
      rcases hfail j hj with h1 | h1 <;> omega
    · rw [hst]

/-- Witness for the C1 theorem: an ingest whose embedding call fails
leaves the empty engine's registry empty. -/
theorem ingest_document_atomic_witness :
    (∀ e, (Except.error () : Except Unit Document) = Except.error e →
      emptyEngine.documents = emptyEngine.documents ∧
      (get_metrics emptyEngine).total_documents
        = (get_metrics emptyEngine).total_documents) ∧
    (∀ doc, (Except.error () : Except Unit Document) = Except.ok doc →
      ∃ text chunks embs,
        (⟨"d1", Except.ok ['h', 'i', '.'], Except.error (), none⟩ :
            IngestCall).extract = Except.ok text ∧
        chunk_text defaultConfig.chunk_size defaultConfig.chunk_overlap text
          = some chunks ∧
        (⟨"d1", Except.ok ['h', 'i', '.'], Except.error (), none⟩ :
            IngestCall).embed = Except.ok embs ∧
        (addChunks "d1"
            (if emptyEngine.hasIndex then none else none) 0
            (chunks.zip embs)).2 = Except.ok doc.chunk_ids ∧
        (∀ j, (if emptyEngine.hasIndex then none else none) = some j →
          (chunks.zip embs).length ≤ j) ∧
        emptyEngine.documents
          = dictInsert emptyEngine.documents "d1" doc) :=
  ingest_document_atomic defaultConfig emptyEngine
    ⟨"d1", Except.ok ['h', 'i', '.'], Except.error (), none⟩
    "f.txt" "general" "Global" (Except.error ()) emptyEngine rfl

/-- C3: `delete_document` returns `false` and changes nothing when the id
is not registered; on a registered id with an initialized index and
non-empty chunk list, a failing `collection.delete` leaves the whole state
(registry included) unchanged and reports `false`, while a successful one
removes the chunks from the index, then the record from the registry, and
returns `true`. -/
theorem delete_document_cases (st : EngineState) (docId : String)
    (delFails b : Bool) (st' : EngineState)
    (h : delete_document st docId delFails = (b, st')) :
    (st.documents.find? (fun p => p.1 == docId) = none →
      b = false ∧ st' = st) ∧
    (∀ p, st.documents.find? (fun q => q.1 == docId) = some p →
      st.hasIndex = true → p.2.chunk_ids ≠ [] →
      (delFails = true → b = false ∧ st' = st) ∧
      (delFails = false → b = true ∧
        st'.documents = dictErase st.documents docId ∧
        st'.index = st.index.filter (fun e => decide (e.id ∉ p.2.chunk_ids)))) := by
  unfold delete_document at h
  constructor
  · intro hnone
    rw [hnone] at h
    injection h with h1 h2
    exact ⟨h1.symm, h2.symm⟩
  · intro p hp hidx hne
    rw [hp] at h
    simp only [] at h
    rw [if_pos ⟨hidx, hne⟩] at h
    cases delFails with
    | true =>
      rw [if_pos rfl] at h
      injection h with h1 h2
      constructor
      · intro _
        exact ⟨h1.symm, h2.symm⟩
      · intro hco
        exact absurd hco (by simp)
    | false =>
      rw [if_neg (by simp)] at h
      injection h with h1 h2
      constructor
      · intro hco
        exact absurd hco (by simp)
      · intro _
        refine ⟨h1.symm, ?_, ?_⟩
        · rw [← h2]
        · rw [← h2]

/-- Witness for the C3 theorem: deleting the registered document of
`sampleState` with a non-failing index delete succeeds and clears both
stores. -/
theorem delete_document_cases_witness :
    (sampleState.documents.find? (fun p => p.1 == "d1") = none →
      true = false ∧ (⟨[], [], [], true⟩ : EngineState) = sampleState) ∧
    (∀ p, sampleState.documents.find? (fun q => q.1 == "d1") = some p →
      sampleState.hasIndex = true → p.2.chunk_ids ≠ [] →
      (false = true → true = false ∧
        (⟨[], [], [], true⟩ : EngineState) = sampleState) ∧
      (false = false → true = true ∧
        (⟨[], [], [], true⟩ : EngineState).documents
          = dictErase sampleState.documents "d1" ∧
        (⟨[], [], [], true⟩ : EngineState).index
          = sampleState.index.filter
            (fun e => decide (e.id ∉ p.2.chunk_ids)))) :=
  delete_document_cases sampleState "d1" false true ⟨[], [], [], true⟩ rfl

/-- C8: after any sequence of successful ingest and delete operations
starting from an empty engine, `get_metrics().total_chunks` (the sum of
the registered documents' `chunk_count`s) equals the index's own count
`total_embeddings`, and `total_documents` equals the number of registry
records. -/
theorem metrics_consistency (cfg : RAGConfig) (st : EngineState)
    (h : OkRun cfg emptyEngine st) :
    (get_metrics st).total_chunks = (get_metrics st).total_embeddings ∧
    (get_metrics st).total_documents = st.documents.length := by
  obtain ⟨hidx, hnd, hdoc, hperm⟩ := okRun_wf cfg emptyEngine st h wf_emptyEngine
  constructor
  · show (st.documents.map (fun p => p.2.chunk_count)).sum
      = (if st.hasIndex then st.index.length else 0)
    rw [hidx, if_pos rfl]
    have hlen := hperm.length_eq
    rw [List.length_map, List.length_flatten, List.map_map] at hlen
    rw [hlen]
    congr 1
    apply List.map_congr_left
    intro p hp
    obtain ⟨-, hcnt, -⟩ := hdoc p hp
    simpa using hcnt
  · rfl

/-- Witness for the C8 theorem: a one-operation run ingesting a
three-character document into the empty engine, after which both chunk
counts are `1`. -/
theorem metrics_consistency_witness :
    (get_metrics ⟨[("d1", ⟨"d1", "f.txt", ['h', 'i', '.'], "general",
        "Global", 1, [⟨"d1", 0⟩]⟩)],
      [⟨⟨"d1", 0⟩, "d1", ['h', 'i', '.'], []⟩], [], true⟩).total_chunks
      = (get_metrics ⟨[("d1", ⟨"d1", "f.txt", ['h', 'i', '.'], "general",
          "Global", 1, [⟨"d1", 0⟩]⟩)],
        [⟨⟨"d1", 0⟩, "d1", ['h', 'i', '.'], []⟩], [], true⟩).total_embeddings ∧
    (get_metrics ⟨[("d1", ⟨"d1", "f.txt", ['h', 'i', '.'], "general",
        "Global", 1, [⟨"d1", 0⟩]⟩)],
      [⟨⟨"d1", 0⟩, "d1", ['h', 'i', '.'], []⟩], [], true⟩).total_documents
      = (⟨[("d1", ⟨"d1", "f.txt", ['h', 'i', '.'], "general", "Global", 1,
          [⟨"d1", 0⟩]⟩)],
        [⟨⟨"d1", 0⟩, "d1", ['h', 'i', '.'], []⟩], [], true⟩ :
          EngineState).documents.length :=
  metrics_consistency defaultConfig _
    (OkRun.tail _ _ _ (OkRun.refl emptyEngine)
      (OkOp.ingest emptyEngine
        ⟨"d1", Except.ok ['h', 'i', '.'], Except.ok [[]], none⟩
        "f.txt" "general" "Global"
        ⟨"d1", "f.txt", ['h', 'i', '.'], "general", "Global", 1, [⟨"d1", 0⟩]⟩
        _ rfl
        (by
          intro text chunks embs h1 h2 h3
          injection h1 with h1
          subst h1
          rw [show chunk_text defaultConfig.chunk_size
              defaultConfig.chunk_overlap ['h', 'i', '.']
              = some [['h', 'i', '.']] from rfl] at h2
          injection h2 with h2
          injection h3 with h3
          rw [← h2, ← h3]
          exact le_refl 1)
        rfl))

end RAG
